import Mathlib

/-!
Shallow embedding of the `interpro-arrow` partitioned columnar store
(Rust sources under `src/`): the `Term` taxonomy (`src/records/term.rs`),
the chunked batch builders (`src/records/gene.rs`, `src/records/domain.rs`),
the partition-path filter (`src/partition.rs`) and the query/register
pipeline stages of `src/main.rs`.

Rust strings are embedded as `List Char`; Rust `Vec` as `List`;
`HashMap` as an association list keyed by a type with decidable equality;
`Result`/panics as `Option`/`Except`; the `i16` machine integer as `Int`
with explicit two's-complement wrapping where the code casts.
-/

set_option maxRecDepth 4000

namespace InterproArrow

/-- The closed `Term` enumeration of annotation sources
(`src/records/term.rs`, `enum Term`), in declaration order. -/
inductive Term where
  | ID
  | CDD
  | Coils
  | Gene3D
  | MobiDBLite
  | PANTHER
  | Pfam
  | PIRSF
  | PIRSR
  | PRINTS
  | ProSitePatterns
  | ProSiteProfiles
  | SFLD
  | SMART
  | SUPERFAMILY
  | TIGRFAM
  | GoTerm
  | Reactome
  | MetaCyc
  | InterPro
  deriving DecidableEq, Repr

/-- The list produced by `Term::iter()` (strum `EnumIter`): every variant,
in declaration order. -/
def termList : List Term :=
  [.ID, .CDD, .Coils, .Gene3D, .MobiDBLite, .PANTHER, .Pfam, .PIRSF, .PIRSR,
   .PRINTS, .ProSitePatterns, .ProSiteProfiles, .SFLD, .SMART, .SUPERFAMILY,
   .TIGRFAM, .GoTerm, .Reactome, .MetaCyc, .InterPro]

/-- The canonical string form of a `Term` (strum `Display`: the variant
name, except `ID` which is serialized as `"."`). -/
def Term.toCanonical : Term → List Char
  | .ID => ".".data
  | .CDD => "CDD".data
  | .Coils => "Coils".data
  | .Gene3D => "Gene3D".data
  | .MobiDBLite => "MobiDBLite".data
  | .PANTHER => "PANTHER".data
  | .Pfam => "Pfam".data
  | .PIRSF => "PIRSF".data
  | .PIRSR => "PIRSR".data
  | .PRINTS => "PRINTS".data
  | .ProSitePatterns => "ProSitePatterns".data
  | .ProSiteProfiles => "ProSiteProfiles".data
  | .SFLD => "SFLD".data
  | .SMART => "SMART".data
  | .SUPERFAMILY => "SUPERFAMILY".data
  | .TIGRFAM => "TIGRFAM".data
  | .GoTerm => "GoTerm".data
  | .Reactome => "Reactome".data
  | .MetaCyc => "MetaCyc".data
  | .InterPro => "InterPro".data

/-- `Term::try_infer` (`src/records/term.rs:34-61`): classify an identifier
string.  The match arms are embedded in source order: the exact match for
`"mobidb-lite"` first, then the prefix checks in the fixed order
`cd`, `G3DSA`, `GO`, `IRR`, `PTHR`, `PWY`, `PS`, `PF`, `SSF`, `SM`,
`TIGR`, `R-`.  The `Err(anyhow!(...))` arm is embedded as `none`. -/
def Term.try_infer (name : List Char) : Option Term :=
  if name = "mobidb-lite".data then some .MobiDBLite
  else if "cd".data.isPrefixOf name then some .CDD
  else if "G3DSA".data.isPrefixOf name then some .Gene3D
  else if "GO".data.isPrefixOf name then some .GoTerm
  else if "IRR".data.isPrefixOf name then some .InterPro
  else if "PTHR".data.isPrefixOf name then some .PANTHER
  else if "PWY".data.isPrefixOf name then some .MetaCyc
  else if "PS".data.isPrefixOf name then some .ProSiteProfiles
  else if "PF".data.isPrefixOf name then some .Pfam
  else if "SSF".data.isPrefixOf name then some .SUPERFAMILY
  else if "SM".data.isPrefixOf name then some .SMART
  else if "TIGR".data.isPrefixOf name then some .TIGRFAM
  else if "R-".data.isPrefixOf name then some .Reactome
  else none

/-- Lexer tokens (the `parser::lex` module is not present under `src/`;
`Term::try_from_tokens` only distinguishes `Token::Name` from every other
token, so all structural tokens are collapsed into one constructor). -/
inductive Token where
  | Name (name : List Char)
  | Structural
  deriving DecidableEq, Repr

/-- `Term::try_from_tokens` (`src/records/term.rs:63-74`): classify every
`Name` token, silently dropping tokens whose classification fails
(`.ok()` inside `filter_map`). -/
def Term.try_from_tokens (tokens : List Token) : List Term :=
  tokens.filterMap (fun token =>
    match token with
    | .Name name => Term.try_infer name
    | _ => none)

/-- Rust `str::split('=')` on a character list: the separator-delimited
parts, empty parts included; a string with `n` occurrences of `'='`
splits into `n + 1` parts. -/
def splitEq : List Char → List (List Char)
  | [] => [[]]
  | c :: rest =>
    if c = '=' then [] :: splitEq rest
    else
      match splitEq rest with
      | [] => [[c]]
      | p :: ps => (c :: p) :: ps

/-- Association-list lookup, embedding `HashMap::get` (first entry whose
key matches). -/
def alGet {κ α : Type} [DecidableEq κ] (m : List (κ × α)) (k : κ) : Option α :=
  (m.find? (fun kv => decide (kv.1 = k))).map (fun kv => kv.2)

/-- The flag computed by one loop iteration of `check_path`
(`src/partition.rs:27-44`): `none` when the segment does not split on
`'='` into exactly two parts (`continue`), otherwise whether the value is
in the allow-set for a filtered key, or `true` for an unfiltered key. -/
def segFlag (map : List (List Char × List (List Char))) (p : List Char) : Option Bool :=
  match splitEq p with
  | [k, v] =>
    match alGet map k with
    | some expected => some (decide (v ∈ expected))
    | none => some true
  | _ => none

/-- `check_path` (`src/partition.rs:24-47`): collect a flag per path
segment and require all flags to be true.  A path is embedded as its list
of segments. -/
def check_path (segs : List (List Char)) (map : List (List Char × List (List Char))) : Bool :=
  (segs.filterMap (segFlag map)).all id

/-- `PartitionedIpcReader::map` (`src/partition.rs:82-94`) composed with
`with_org` and `with_source` (`src/partition.rs:72-80`): the filter map
has an `"org"` entry exactly when an org filter was given and a
`"source"` entry exactly when a source filter was given, the latter
holding the canonical string of every given Term. -/
def findMap (org : Option (List (List Char))) (source : Option (List Term)) :
    List (List Char × List (List Char)) :=
  (match org with
   | some o => [("org".data, o)]
   | none => []) ++
  (match source with
   | some s => [("source".data, s.map Term.toCanonical)]
   | none => [])

/-- Two's-complement wrap of a `usize` value into `i16`: the embedding of
the Rust cast `seq.len() as i16` (truncation to the low 16 bits,
interpreted as a signed 16-bit integer). -/
def wrapI16 (n : Nat) : Int :=
  if n % 65536 < 32768 then (n % 65536 : Int) else (n % 65536 : Int) - 65536

/-- A gene row as handed to `GeneRecords::push`. -/
structure GeneRow where
  gene_id : List Char
  seq : List Char
  desc : Option (List Char)
  organism : List Char
  deriving DecidableEq, Repr

/-- One index of the parallel column vectors of `GeneRecords`
(`gene_ids`, `seqs`, `lengths`, `desc`, `organism`): the `length` column
holds the `i16` cast of the sequence length computed by `push`. -/
structure GeneRowS where
  gene_id : List Char
  seq : List Char
  length : Int
  desc : Option (List Char)
  organism : List Char
  deriving DecidableEq, Repr

/-- The stored form of a pushed gene row (`src/records/gene.rs:56-62`). -/
def GeneRow.store (r : GeneRow) : GeneRowS :=
  ⟨r.gene_id, r.seq, wrapI16 r.seq.length, r.desc, r.organism⟩

/-- `GeneRecords` (`src/records/gene.rs:13-22`): the in-progress parallel
row vectors (modelled as one list of stored rows), the chunk size, and
the list of flushed chunks. -/
structure GeneRecords where
  rows : List GeneRowS
  chunk_size : Nat
  chunks : List (List GeneRowS)
  deriving Repr

/-- `GeneRecords::new` (`src/records/gene.rs:35-47`). -/
def GeneRecords.new (chunk_size : Nat) : GeneRecords := ⟨[], chunk_size, []⟩

/-- `GeneRecords::rechunk` (`src/records/gene.rs:100-111`): flush and
reset exactly when the row count equals `chunk_size`. -/
def GeneRecords.rechunk (b : GeneRecords) : GeneRecords :=
  if b.chunk_size = b.rows.length then
    { b with rows := [], chunks := b.chunks ++ [b.rows] }
  else b

/-- `GeneRecords::push` (`src/records/gene.rs:49-64`): rechunk first
(capacity checked pre-append), then append the row, deriving the `length`
column from the sequence. -/
def GeneRecords.push (b : GeneRecords) (gene_id seq : List Char)
    (desc : Option (List Char)) (organism : List Char) : GeneRecords :=
  let b' := b.rechunk
  { b' with rows := b'.rows ++ [⟨gene_id, seq, wrapI16 seq.length, desc, organism⟩] }

/-- `GeneRecords::finish` (`src/records/gene.rs:91-98`): flush the final
partial batch when non-empty. -/
def GeneRecords.finish (b : GeneRecords) : GeneRecords :=
  if b.rows = [] then b
  else { b with rows := [], chunks := b.chunks ++ [b.rows] }

/-- Push a whole sequence of rows in order. -/
def GeneRecords.pushAll (b : GeneRecords) (rows : List GeneRow) : GeneRecords :=
  rows.foldl (fun acc r => acc.push r.gene_id r.seq r.desc r.organism) b

/-- Every row ever appended, in order: flushed chunks then in-progress rows. -/
def GeneRecords.content (b : GeneRecords) : List GeneRowS := b.chunks.flatten ++ b.rows

/-- Builder invariant: recorded chunk size, in-progress rows within
capacity, every flushed chunk exactly full. -/
def GeneInv (cs : Nat) (b : GeneRecords) : Prop :=
  b.chunk_size = cs ∧ b.rows.length ≤ cs ∧ ∀ c ∈ b.chunks, c.length = cs

/-- A domain annotation row as handed to `DomainRecords::push` minus the
routing `source`: one index of the parallel column vectors of
`DomainRecord` (`src/records/domain.rs:33-39`); `endPos` embeds the Rust
field `end`. -/
structure DomainRow where
  start : Int
  endPos : Int
  domain_name : List Char
  domain_desc : Option (List Char)
  gene_id : List Char
  deriving DecidableEq, Repr

/-- `DomainRecords` (`src/records/domain.rs:92-97`): the per-Term
in-progress rows (`sources`) and flushed chunks (`chunks`), both Rust
`HashMap`s keyed by `Term`, embedded as association lists. -/
structure DomainRecords where
  sources : List (Term × List DomainRow)
  chunks : List (Term × List (List DomainRow))
  chunk_size : Nat
  deriving Repr

/-- `DomainRecords::new` (`src/records/domain.rs:100-107`): both maps get
an entry for every `Term` via `Term::iter()`. -/
def DomainRecords.new (chunk_size : Nat) : DomainRecords :=
  ⟨termList.map (fun t => (t, [])), termList.map (fun t => (t, [])), chunk_size⟩

/-- Association-list update, embedding `HashMap::get_mut` followed by a
mutation: rewrites the value at a present key, no-op when absent. -/
def alUpdate {κ α : Type} [DecidableEq κ] (m : List (κ × α)) (k : κ) (f : α → α) :
    List (κ × α) :=
  m.map (fun kv => if kv.1 = k then (kv.1, f kv.2) else kv)

/-- The shared loop shape of `DomainRecords::rechunk`
(`src/records/domain.rs:109-120`) and `DomainRecords::finish`
(`src/records/domain.rs:139-149`): iterate over the `sources` entries and,
for each `(k, v)` satisfying the flush condition, push `v` onto
`chunks[k]` (`self.chunks.get_mut(k).unwrap()` — `none` embeds the unwrap
panic) and reset the entry to an empty `DomainRecord`. -/
def flushAux (pred : List DomainRow → Bool) :
    List (Term × List DomainRow) → List (Term × List (List DomainRow)) →
    Option (List (Term × List DomainRow) × List (Term × List (List DomainRow)))
  | [], chunks => some ([], chunks)
  | (k, v) :: rest, chunks =>
    if pred v then
      match alGet chunks k with
      | none => none
      | some _ =>
        match flushAux pred rest (alUpdate chunks k (fun l => l ++ [v])) with
        | none => none
        | some (rest', chunks') => some ((k, []) :: rest', chunks')
    else
      match flushAux pred rest chunks with
      | none => none
      | some (rest', chunks') => some ((k, v) :: rest', chunks')

/-- `DomainRecords::rechunk`: flush every Term whose in-progress rows
number exactly `chunk_size`. -/
def DomainRecords.rechunk (b : DomainRecords) : Option DomainRecords :=
  match flushAux (fun v => v.length == b.chunk_size) b.sources b.chunks with
  | none => none
  | some (s, c) => some { b with sources := s, chunks := c }

/-- `DomainRecords::push` (`src/records/domain.rs:122-137`): append the
row to the source's entry when present (`if let Some`), then rechunk. -/
def DomainRecords.push (b : DomainRecords) (source : Term) (r : DomainRow) :
    Option DomainRecords :=
  DomainRecords.rechunk
    { b with sources := alUpdate b.sources source (fun v => v ++ [r]) }

/-- `DomainRecords::finish`: flush every Term with a non-empty in-progress
record. -/
def DomainRecords.finish (b : DomainRecords) : Option DomainRecords :=
  match flushAux (fun v => decide (v ≠ [])) b.sources b.chunks with
  | none => none
  | some (s, c) => some { b with sources := s, chunks := c }

/-- Push a whole sequence of `(source, row)` pairs in order. -/
def DomainRecords.pushAll (b : DomainRecords) :
    List (Term × DomainRow) → Option DomainRecords
  | [] => some b
  | (t, r) :: rest =>
    match b.push t r with
    | none => none
    | some b' => b'.pushAll rest

/-- The in-progress rows of one Term. -/
def DomainRecords.srcAt (b : DomainRecords) (t : Term) : List DomainRow :=
  (alGet b.sources t).getD []

/-- The flushed chunks of one Term. -/
def DomainRecords.chunksAt (b : DomainRecords) (t : Term) : List (List DomainRow) :=
  (alGet b.chunks t).getD []

/-- Every row ever routed to one Term, in order. -/
def DomainRecords.contentAt (b : DomainRecords) (t : Term) : List DomainRow :=
  (b.chunksAt t).flatten ++ b.srcAt t

/-- Key-completeness: both `HashMap`s hold exactly the `Term::iter()` keys,
as `DomainRecords::new` establishes. -/
def DomKeys (b : DomainRecords) : Prop :=
  b.sources.map Prod.fst = termList ∧ b.chunks.map Prod.fst = termList

/-- `DomainRecords::write` (`src/records/domain.rs:151-182`): finish, then
for EVERY entry `(source, batches)` of the chunks map create the partition
directory `<dir>/source=<canonical>` and write one batch file
`<uuid>.ipc` inside it holding that Term's flushed chunks — also when
`batches` is empty.  The filesystem effect is embedded as the list of
`(directory, file name, contents)` triples, one per Term; the fresh uuid
drawn in each loop iteration is supplied by the `uuid` parameter. -/
def DomainRecords.write (b : DomainRecords) (dir : List Char) (uuid : Term → List Char) :
    Option (List (List Char × List Char × List (List DomainRow))) :=
  match b.finish with
  | none => none
  | some bf => some (bf.chunks.map (fun kv =>
      (dir ++ "/source=".data ++ Term.toCanonical kv.1,
       uuid kv.1 ++ ".ipc".data, kv.2)))

/-- An entry of the embedded filesystem: a directory, a domain batch
file, or a gene batch file with its decoded contents. -/
inductive FSEntry where
  | dir (path : List Char)
  | domainFile (path : List Char) (chunks : List (List DomainRow))
  | geneFile (path : List Char) (chunks : List (List GeneRowS))
  deriving DecidableEq, Repr

/-- The path of a filesystem entry. -/
def FSEntry.path : FSEntry → List Char
  | .dir p => p
  | .domainFile p _ => p
  | .geneFile p _ => p

/-- `Path::exists` on the embedded filesystem. -/
def fsExists (fs : List FSEntry) (p : List Char) : Bool :=
  fs.any (fun e => e.path == p)

/-- Errors of the `Register` arm. -/
inductive RegError where
  | alreadyRegistered
  | parseFailed
  | writeFailed
  deriving DecidableEq, Repr

/-- The `Register` arm of `main` (`src/main.rs:28-46`): `domain_dir.exists()`
is checked FIRST and fails with the already-registered error before any
parsing or write; otherwise the GFF3 input is parsed (embedded as an
optional pre-parsed builder pair, `none` embedding a parse failure), the
domain partitions are written, and the gene directory and gene batch file
are created.  Returns the resulting filesystem and the error, if any. -/
def registerCmd (fs : List FSEntry) (dir org : List Char)
    (input : Option (DomainRecords × GeneRecords))
    (uuidD : Term → List Char) (uuidG : List Char) :
    List FSEntry × Option RegError :=
  if fsExists fs (dir ++ "/domain/org=".data ++ org) then
    (fs, some .alreadyRegistered)
  else
    match input with
    | none => (fs, some .parseFailed)
    | some (dr, gr) =>
      match dr.write (dir ++ "/domain/org=".data ++ org) uuidD with
      | none => (fs, some .writeFailed)
      | some files =>
        (fs ++ [FSEntry.dir (dir ++ "/domain/org=".data ++ org)] ++
          files.map (fun f => FSEntry.dir f.1) ++
          files.map (fun f => FSEntry.domainFile (f.1 ++ "/".data ++ f.2.1) f.2.2) ++
          [FSEntry.dir (dir ++ "/gene/org=".data ++ org),
           FSEntry.geneFile (dir ++ "/gene/org=".data ++ org ++ "/".data ++
             uuidG ++ ".ipc".data) gr.finish.chunks],
         none)

/-- The mask construction of the `Find` arm (`src/main.rs:66-78`): one
boolean per grouped gene from its optional aggregated `domain_name` list;
a `None` entry yields `false` without consulting the matcher.  The
matcher (`Expr::matches`, whose `parser` module is not present under
`src/`) is a parameter. -/
def findMask (matcher : List (List Char) → Bool)
    (groups : List (List Char × Option (List (List Char)))) : List Bool :=
  groups.map (fun g =>
    match g.2 with
    | some names => matcher names
    | none => false)

/-- `DataFrame::filter` by a boolean mask (`src/main.rs:80`): keep the
rows whose mask entry is true. -/
def filterByMask {α : Type} : List α → List Bool → List α
  | x :: xs, bb :: bs => if bb then x :: filterByMask xs bs else filterByMask xs bs
  | _, _ => []

/-- The grouped-gene filtering stage of the `Find` arm: mask then filter. -/
def findKept (matcher : List (List Char) → Bool)
    (groups : List (List Char × Option (List (List Char)))) :
    List (List Char × Option (List (List Char))) :=
  filterByMask groups (findMask matcher groups)

/-- C5: `Term::try_infer` is a total deterministic pure function (a Lean
`def` on `List Char`); `classify("GO:0008150") = GoTerm`,
`classify("PF00069") = Pfam`, `classify("mobidb-lite") = MobiDBLite`,
`classify("xyz123")` fails; the exact-name match is checked before the
prefix matches and the prefixes in a fixed order, so an identifier
beginning `"PF"` is always classified `Pfam` (never the `"PS"`-prefixed
`ProSiteProfiles`) and one beginning `"PS"` always `ProSiteProfiles`. -/
theorem C5_try_infer_classification :
    Term.try_infer "GO:0008150".data = some Term.GoTerm ∧
    Term.try_infer "PF00069".data = some Term.Pfam ∧
    Term.try_infer "mobidb-lite".data = some Term.MobiDBLite ∧
    Term.try_infer "xyz123".data = none ∧
    (∀ s : List Char, "PF".data.isPrefixOf s → Term.try_infer s = some Term.Pfam) ∧
    (∀ s : List Char, "PS".data.isPrefixOf s →
      Term.try_infer s = some Term.ProSiteProfiles) := by
  refine ⟨by decide, by decide, by decide, by decide, ?_, ?_⟩
  · intro s h
    rw [ List.isPrefixOf_iff_prefix] at h
    obtain ⟨t, rfl⟩ := h
    simp [Term.try_infer, List.isPrefixOf]
  · intro s h
    rw [ List.isPrefixOf_iff_prefix] at h
    obtain ⟨t, rfl⟩ := h
    simp [Term.try_infer, List.isPrefixOf]

/-- Witness for C5: the universally quantified prefix clauses applied at
concrete identifiers. -/
theorem C5_try_infer_classification_witness :
    Term.try_infer "PF".data = some Term.Pfam ∧
    Term.try_infer "PS50011".data = some Term.ProSiteProfiles :=
  ⟨C5_try_infer_classification.2.2.2.2.1 "PF".data (by decide),
   C5_try_infer_classification.2.2.2.2.2 "PS50011".data (by decide)⟩

theorem splitEq_ne_nil (l : List Char) : splitEq l ≠ [] := by
  induction l with
  | nil => simp [splitEq]
  | cons c rest ih =>
    unfold splitEq
    by_cases hc : c = '='
    · simp [hc]
    · simp only [if_neg hc]
      cases h : splitEq rest with
      | nil => simp
      | cons p ps => simp

theorem splitEq_length (l : List Char) : (splitEq l).length = l.count '=' + 1 := by
  induction l with
  | nil => simp [splitEq]
  | cons c rest ih =>
    unfold splitEq
    by_cases hc : c = '='
    · simp [hc, ih, List.count_cons]
    · simp only [if_neg hc]
      cases h : splitEq rest with
      | nil => exact absurd h (splitEq_ne_nil rest)
      | cons p ps =>
        have := ih
        rw [h] at this
        simp only [List.length_cons] at this ⊢
        simp [List.count_cons, hc, ← this]

theorem check_path_eq_true_iff (segs : List (List Char))
    (map : List (List Char × List (List Char))) :
    check_path segs map = true ↔
      ∀ seg ∈ segs, ∀ k v, splitEq seg = [k, v] →
        ∀ expected, alGet map k = some expected → v ∈ expected := by
  unfold check_path
  rw [List.all_eq_true]
  constructor
  · intro h seg hseg k v hsplit expected hget
    have hm : decide (v ∈ expected) ∈ segs.filterMap (segFlag map) := by
      rw [List.mem_filterMap]
      exact ⟨seg, hseg, by simp [segFlag, hsplit, hget]⟩
    simpa using h _ hm
  · intro h b hb
    rw [List.mem_filterMap] at hb
    obtain ⟨seg, hseg, hflag⟩ := hb
    unfold segFlag at hflag
    split at hflag
    · rename_i k v hsplit
      cases hget : alGet map k with
      | some expected =>
        rw [hget] at hflag
        simp only [Option.some.injEq] at hflag
        subst hflag
        simpa using h seg hseg k v hsplit expected hget
      | none =>
        rw [hget] at hflag
        simp only [Option.some.injEq] at hflag
        subst hflag
        rfl
    · exact absurd hflag (by simp)

theorem segFlag_eq_none_of_length_ne_two (map : List (List Char × List (List Char)))
    (seg : List Char) (h : (splitEq seg).length ≠ 2) : segFlag map seg = none := by
  unfold segFlag
  split
  · rename_i k v hsplit
    rw [hsplit] at h
    simp at h
  · rfl

/-- C4: `check_path` selects a path iff every segment of the form
`key=value` whose key is filtered has its value in that key's allow-set;
segments with unrecognized or unfiltered keys never cause rejection, and
the empty filter map selects every path. -/
theorem C4_check_path_selected_iff :
    (∀ (segs : List (List Char)) (map : List (List Char × List (List Char))),
      check_path segs map = true ↔
        ∀ seg ∈ segs, ∀ k v, splitEq seg = [k, v] →
          ∀ expected, alGet map k = some expected → v ∈ expected) ∧
    (∀ segs : List (List Char), check_path segs [] = true) := by
  refine ⟨check_path_eq_true_iff, ?_⟩
  intro segs
  rw [check_path_eq_true_iff]
  intro seg _ k v _ expected hget
  simp [alGet] at hget

/-- Witness for C4: the iff applied at a concrete selected path, then
instantiated at its filtered `org=A` segment. -/
theorem C4_check_path_selected_iff_witness : "A".data ∈ ["A".data] :=
  (C4_check_path_selected_iff.1 ["org=A".data, "weird=zz".data, "f.ipc".data]
      [("org".data, ["A".data])]).mp (by decide)
    "org=A".data (by decide) "org".data "A".data (by decide) ["A".data] (by decide)

theorem check_path_cons_skip (seg : List Char) (segs : List (List Char))
    (map : List (List Char × List (List Char))) (h : (splitEq seg).length ≠ 2) :
    check_path (seg :: segs) map = check_path segs map := by
  simp [check_path, List.filterMap_cons, segFlag_eq_none_of_length_ne_two map seg h]

/-- C9: a path segment that does not split on `'='` into exactly two parts
(no `'='`, or more than one) is skipped by `check_path` and imposes no
constraint; consequently a segment `key=value` whose value itself contains
`'='` (three or more parts) is never checked against, rejected by, or
matched by any filter map. -/
theorem C9_malformed_segment_no_constraint :
    (∀ (seg : List Char) (segs : List (List Char))
        (map : List (List Char × List (List Char))),
      (splitEq seg).length ≠ 2 →
      check_path (seg :: segs) map = check_path segs map) ∧
    (∀ (k v : List Char) (segs : List (List Char))
        (map : List (List Char × List (List Char))),
      '=' ∈ v →
      check_path ((k ++ '=' :: v) :: segs) map = check_path segs map) := by
  constructor
  · exact check_path_cons_skip
  · intro k v segs map hv
    apply check_path_cons_skip
    have hvc : 0 < v.count '=' := List.count_pos_iff.mpr hv
    rw [splitEq_length, List.count_append]
    simp [List.count_cons]
    omega

/-- Witness for C9: a `source=a=b` segment imposes no constraint even when
the allow-set for `source` contains exactly the string `a=b`. -/
theorem C9_malformed_segment_no_constraint_witness :
    check_path (("source".data ++ '=' :: "a=b".data) :: [])
        [("source".data, ["a=b".data])] =
      check_path [] [("source".data, ["a=b".data])] :=
  C9_malformed_segment_no_constraint.2 "source".data "a=b".data []
    [("source".data, ["a=b".data])] (by decide)

theorem alGet_singleton {α : Type} (k₀ k : List Char) (x : α) :
    alGet [(k₀, x)] k = if k₀ = k then some x else none := by
  by_cases h : k₀ = k <;> simp [alGet, List.find?, h]

/-- C1 counterexample: with the token list
`[Name "xyz123", Name "PF00069"]` (classification fails for the atom
`"xyz123"`), the derived pruning set is `[Pfam]` and the source filter
handed to the partition scanner rejects the `source=GoTerm` partition
path — it does not fall back to accepting all sources. -/
theorem C1_pruning_counterexample :
    Term.try_from_tokens [Token.Name "xyz123".data, Token.Name "PF00069".data] =
      [Term.Pfam] ∧
    check_path ["domain".data, "org=A".data, "source=GoTerm".data, "x.ipc".data]
      (findMap none (some (Term.try_from_tokens
        [Token.Name "xyz123".data, Token.Name "PF00069".data]))) = false := by
  constructor <;> decide

/-- C1 (amended): deriving the Term pruning set never fails — atoms whose
classification fails are silently dropped — and the resulting source
filter accepts exactly the paths all of whose `source=v` segments have `v`
among the canonical strings of the successfully classified Terms; in
particular partitions of every other Term are excluded, and when every
atom fails classification the empty filter excludes every source
partition. -/
theorem C1_pruning_filter_amended (tokens : List Token) (segs : List (List Char)) :
    check_path segs (findMap none (some (Term.try_from_tokens tokens))) = true ↔
      ∀ seg ∈ segs, ∀ k v, splitEq seg = [k, v] → k = "source".data →
        v ∈ (Term.try_from_tokens tokens).map Term.toCanonical := by
  rw [check_path_eq_true_iff]
  have hmap : findMap none (some (Term.try_from_tokens tokens)) =
      [("source".data, (Term.try_from_tokens tokens).map Term.toCanonical)] := rfl
  rw [hmap]
  constructor
  · intro h seg hseg k v hsplit hk
    refine h seg hseg k v hsplit _ ?_
    rw [alGet_singleton, if_pos hk.symm]
  · intro h seg hseg k v hsplit expected hget
    rw [alGet_singleton] at hget
    split at hget
    · rename_i hk
      obtain rfl : (Term.try_from_tokens tokens).map Term.toCanonical = expected :=
        Option.some.inj hget
      exact h seg hseg k v hsplit hk.symm
    · exact absurd hget (by simp)

/-- Witness for C1: the amended characterization applied at a concrete
query whose single atom classifies to `GoTerm` and at the path
`source=GoTerm`. -/
theorem C1_pruning_filter_amended_witness :
    "GoTerm".data ∈
      (Term.try_from_tokens [Token.Name "GO:0008150".data]).map Term.toCanonical :=
  (C1_pruning_filter_amended [Token.Name "GO:0008150".data]
      ["source=GoTerm".data]).mp (by decide)
    "source=GoTerm".data (by decide) "source".data "GoTerm".data (by decide) rfl

theorem GeneRecords.push_step (cs : Nat) (hcs : 1 ≤ cs) (b : GeneRecords)
    (hb : GeneInv cs b) (gene_id seq : List Char) (desc : Option (List Char))
    (organism : List Char) :
    GeneInv cs (b.push gene_id seq desc organism) ∧
    (b.push gene_id seq desc organism).content =
      b.content ++ [⟨gene_id, seq, wrapI16 seq.length, desc, organism⟩] := by
  obtain ⟨hsz, hlen, hch⟩ := hb
  unfold GeneRecords.push GeneRecords.rechunk GeneRecords.content GeneInv
  by_cases hf : b.chunk_size = b.rows.length
  · simp only [if_pos hf]
    refine ⟨⟨hsz, by simpa using hcs, ?_⟩, ?_⟩
    · intro c hc
      rcases List.mem_append.mp hc with hc | hc
      · exact hch c hc
      · simp only [List.mem_singleton] at hc
        subst hc
        omega
    · simp [GeneRecords.content, List.flatten_append]
  · simp only [if_neg hf]
    refine ⟨⟨hsz, ?_, hch⟩, ?_⟩
    · simp only [List.length_append, List.length_singleton]
      omega
    · simp [GeneRecords.content]

theorem GeneRecords.pushAll_inv (cs : Nat) (hcs : 1 ≤ cs) (rows : List GeneRow)
    (b : GeneRecords) (hb : GeneInv cs b) :
    GeneInv cs (b.pushAll rows) ∧
    (b.pushAll rows).content = b.content ++ rows.map GeneRow.store := by
  induction rows generalizing b with
  | nil => simpa [GeneRecords.pushAll] using hb
  | cons r rest ih =>
    have step := GeneRecords.push_step cs hcs b hb r.gene_id r.seq r.desc r.organism
    have := ih (b.push r.gene_id r.seq r.desc r.organism) step.1
    refine ⟨this.1, ?_⟩
    calc (b.pushAll (r :: rest)).content
        = ((b.push r.gene_id r.seq r.desc r.organism).pushAll rest).content := rfl
      _ = (b.push r.gene_id r.seq r.desc r.organism).content ++ rest.map GeneRow.store :=
          this.2
      _ = b.content ++ [GeneRow.store r] ++ rest.map GeneRow.store := by
          rw [step.2]; rfl
      _ = b.content ++ (r :: rest).map GeneRow.store := by simp

theorem GeneRecords.finish_flush (cs : Nat) (hcs : 1 ≤ cs) (b : GeneRecords)
    (hb : GeneInv cs b) :
    b.finish.rows = [] ∧ b.finish.chunks.flatten = b.content ∧
    ∀ c ∈ b.finish.chunks, c.length ≤ cs ∧ c ≠ [] := by
  obtain ⟨hsz, hlen, hch⟩ := hb
  unfold GeneRecords.finish GeneRecords.content
  by_cases he : b.rows = []
  · simp only [if_pos he]
    refine ⟨he, by simp [he], ?_⟩
    intro c hc
    have := hch c hc
    constructor
    · omega
    · intro hnil
      rw [hnil] at this
      simp at this
      omega
  · simp only [if_neg he]
    refine ⟨trivial, by simp [List.flatten_append], ?_⟩
    intro c hc
    rcases List.mem_append.mp hc with hc | hc
    · have := hch c hc
      constructor
      · omega
      · intro hnil
        rw [hnil] at this
        simp at this
        omega
    · simp only [List.mem_singleton] at hc
      subst hc
      exact ⟨hlen, he⟩

/-- C7 counterexample: pushing a 32768-character sequence stores `-32768`
in the `length` column (`seq.len() as i16` wraps), not the sequence
length `32768`. -/
theorem C7_gene_length_counterexample :
    ((GeneRecords.new 5000).push "g".data (List.replicate 32768 'a') none
        "o".data).rows.map (fun r => r.length) ≠
      [((List.replicate 32768 'a').length : Int)] := by
  intro hcontra
  have hrows : ((GeneRecords.new 5000).push "g".data (List.replicate 32768 'a') none
      "o".data).rows = [⟨"g".data, List.replicate 32768 'a',
        wrapI16 (List.replicate 32768 'a').length, none, "o".data⟩] := rfl
  rw [hrows, List.map_cons, List.map_nil] at hcontra
  injection hcontra with h1 h2
  rw [List.length_replicate] at h1
  exact absurd h1 (by decide)

/-- C7 (amended): `GeneRecords::push` stores as the `length` column the
two's-complement `i16` wrap of the sequence length; this equals the exact
length whenever the sequence has at most 32767 characters. -/
theorem C7_gene_length_wrapped (b : GeneRecords) (gene_id seq : List Char)
    (desc : Option (List Char)) (organism : List Char) :
    (b.push gene_id seq desc organism).rows.getLast? =
      some ⟨gene_id, seq, wrapI16 seq.length, desc, organism⟩ ∧
    (seq.length ≤ 32767 → wrapI16 seq.length = (seq.length : Int)) := by
  constructor
  · simp [GeneRecords.push]
  · intro h
    unfold wrapI16
    rw [if_pos (by omega)]
    omega

/-- Witness for C7 (amended): a three-character sequence stores exactly 3. -/
theorem C7_gene_length_wrapped_witness : wrapI16 "abc".data.length = ("abc".data.length : Int) :=
  (C7_gene_length_wrapped (GeneRecords.new 1) "g".data "abc".data none "o".data).2
    (by decide)

theorem alGet_cons {κ α : Type} [DecidableEq κ] (k t : κ) (v : α) (m : List (κ × α)) :
    alGet ((k, v) :: m) t = if k = t then some v else alGet m t := by
  by_cases h : k = t <;> simp [alGet, List.find?, h]

theorem alGet_eq_none_iff {κ α : Type} [DecidableEq κ] (m : List (κ × α)) (k : κ) :
    alGet m k = none ↔ k ∉ m.map Prod.fst := by
  induction m with
  | nil => simp [alGet]
  | cons kv rest ih =>
    obtain ⟨a, v⟩ := kv
    rw [alGet_cons]
    by_cases h : a = k
    · simp [h]
    · simp [h, ih, Ne.symm h]

theorem alUpdate_keys {κ α : Type} [DecidableEq κ] (m : List (κ × α)) (k : κ) (f : α → α) :
    (alUpdate m k f).map Prod.fst = m.map Prod.fst := by
  unfold alUpdate
  rw [List.map_map]
  congr 1
  funext kv
  by_cases h : kv.1 = k <;> simp [Function.comp, h]

theorem alGet_alUpdate {κ α : Type} [DecidableEq κ] (m : List (κ × α)) (k t : κ)
    (f : α → α) :
    alGet (alUpdate m k f) t = if k = t then (alGet m t).map f else alGet m t := by
  induction m with
  | nil =>
    by_cases h : k = t <;> simp [alUpdate, alGet, h]
  | cons kv rest ih =>
    obtain ⟨a, v⟩ := kv
    have hup : alUpdate ((a, v) :: rest) k f =
        (if a = k then (a, f v) else (a, v)) :: alUpdate rest k f := by
      simp [alUpdate]
    rw [hup]
    by_cases hak : a = k
    · rw [if_pos hak, alGet_cons]
      by_cases hat : a = t
      · rw [if_pos hat, alGet_cons, if_pos hat, if_pos (hak ▸ hat)]
        rfl
      · rw [if_neg hat, alGet_cons, if_neg hat, ih]
    · rw [if_neg hak, alGet_cons]
      by_cases hat : a = t
      · have hkt : ¬(k = t) := fun h => hak (hat ▸ h ▸ rfl)
        rw [if_pos hat, if_neg hkt, alGet_cons, if_pos hat]
      · rw [if_neg hat, ih, alGet_cons, if_neg hat]

theorem flushAux_spec (pred : List DomainRow → Bool)
    (srcs : List (Term × List DomainRow)) :
    ∀ chunks : List (Term × List (List DomainRow)),
      (srcs.map Prod.fst).Nodup →
      (∀ k ∈ srcs.map Prod.fst, k ∈ chunks.map Prod.fst) →
      ∃ srcs' chunks', flushAux pred srcs chunks = some (srcs', chunks') ∧
        srcs'.map Prod.fst = srcs.map Prod.fst ∧
        chunks'.map Prod.fst = chunks.map Prod.fst ∧
        (∀ t, alGet srcs' t =
          (alGet srcs t).map (fun v => if pred v then [] else v)) ∧
        (∀ t, alGet chunks' t =
          match alGet srcs t with
          | some v => if pred v then (alGet chunks t).map (fun l => l ++ [v])
                      else alGet chunks t
          | none => alGet chunks t) := by
  induction srcs with
  | nil =>
    intro chunks _ _
    exact ⟨[], chunks, rfl, rfl, rfl, fun t => by simp [alGet],
      fun t => by simp [alGet]⟩
  | cons kv rest ih =>
    intro chunks hnd hsub
    obtain ⟨k, v⟩ := kv
    rw [List.map_cons, List.nodup_cons] at hnd
    obtain ⟨hknotin, hndrest⟩ := hnd
    have hkin : k ∈ chunks.map Prod.fst := hsub k (by simp)
    have hsubrest : ∀ a ∈ rest.map Prod.fst, a ∈ chunks.map Prod.fst := by
      intro a ha
      exact hsub a (by simp [ha])
    by_cases hp : pred v
    · obtain ⟨c0, hc0⟩ : ∃ c0, alGet chunks k = some c0 := by
        cases h : alGet chunks k with
        | none => exact absurd hkin ((alGet_eq_none_iff chunks k).mp h)
        | some c0 => exact ⟨c0, rfl⟩
      have hsubrest₁ : ∀ a ∈ rest.map Prod.fst,
          a ∈ (alUpdate chunks k (fun l => l ++ [v])).map Prod.fst := by
        rw [alUpdate_keys]
        exact hsubrest
      obtain ⟨rest', chunks', heq, hkeys1, hkeys2, hs, hc⟩ :=
        ih (alUpdate chunks k (fun l => l ++ [v])) hndrest hsubrest₁
      refine ⟨(k, []) :: rest', chunks', ?_, ?_, ?_, ?_, ?_⟩
      · simp only [flushAux, if_pos hp, hc0, heq]
      · simp [hkeys1]
      · rw [hkeys2, alUpdate_keys]
      · intro t
        rw [alGet_cons, alGet_cons]
        by_cases ht : k = t
        · rw [if_pos ht, if_pos ht]
          simp [hp]
        · rw [if_neg ht, if_neg ht, hs t]
      · intro t
        by_cases ht : k = t
        · subst ht
          have hrestk : alGet rest k = none := (alGet_eq_none_iff rest k).mpr hknotin
          rw [hc k, hrestk]
          simp only [alGet_alUpdate, if_pos rfl, alGet_cons]
          simp [hp]
        · have h1 : alGet (alUpdate chunks k (fun l => l ++ [v])) t = alGet chunks t := by
            rw [alGet_alUpdate, if_neg ht]
          rw [hc t, alGet_cons, if_neg ht, h1]
    · obtain ⟨rest', chunks', heq, hkeys1, hkeys2, hs, hc⟩ := ih chunks hndrest hsubrest
      refine ⟨(k, v) :: rest', chunks', ?_, ?_, ?_, ?_, ?_⟩
      · simp only [flushAux, if_neg hp, heq]
      · simp [hkeys1]
      · exact hkeys2
      · intro t
        rw [alGet_cons, alGet_cons]
        by_cases ht : k = t
        · rw [if_pos ht, if_pos ht]
          simp [hp]
        · rw [if_neg ht, if_neg ht, hs t]
      · intro t
        by_cases ht : k = t
        · subst ht
          have hrestk : alGet rest k = none := (alGet_eq_none_iff rest k).mpr hknotin
          rw [hc k, hrestk, alGet_cons, if_pos rfl]
          simp [hp]
        · rw [hc t, alGet_cons, if_neg ht]

theorem termList_nodup : termList.Nodup := by decide

theorem mem_termList (t : Term) : t ∈ termList := by cases t <;> decide

theorem alGet_mapConst {α : Type} (L : List Term) (t : Term) (x : α) (h : t ∈ L) :
    alGet (L.map (fun s => (s, x))) t = some x := by
  induction L with
  | nil => simp at h
  | cons a rest ih =>
    rw [List.map_cons, alGet_cons]
    by_cases hat : a = t
    · rw [if_pos hat]
    · rw [if_neg hat]
      refine ih ?_
      rcases List.mem_cons.mp h with h | h
      · exact absurd h.symm hat
      · exact h

theorem DomKeys_new (cs : Nat) : DomKeys (DomainRecords.new cs) := by
  constructor
  · show List.map Prod.fst (termList.map (fun t => (t, ([] : List DomainRow)))) = termList
    decide
  · show List.map Prod.fst
      (termList.map (fun t => (t, ([] : List (List DomainRow))))) = termList
    decide

theorem alGet_srcAt (b : DomainRecords) (hb : DomKeys b) (t : Term) :
    alGet b.sources t = some (b.srcAt t) := by
  have hmem : t ∈ b.sources.map Prod.fst := by
    rw [hb.1]
    exact mem_termList t
  cases h : alGet b.sources t with
  | none => exact absurd hmem ((alGet_eq_none_iff _ _).mp h)
  | some x => simp [DomainRecords.srcAt, h]

theorem alGet_chunksAt (b : DomainRecords) (hb : DomKeys b) (t : Term) :
    alGet b.chunks t = some (b.chunksAt t) := by
  have hmem : t ∈ b.chunks.map Prod.fst := by
    rw [hb.2]
    exact mem_termList t
  cases h : alGet b.chunks t with
  | none => exact absurd hmem ((alGet_eq_none_iff _ _).mp h)
  | some x => simp [DomainRecords.chunksAt, h]

theorem DomainRecords.rechunk_spec (b : DomainRecords) (hb : DomKeys b) :
    ∃ b', b.rechunk = some b' ∧ b'.chunk_size = b.chunk_size ∧ DomKeys b' ∧
      (∀ t, b'.srcAt t =
        if (b.srcAt t).length = b.chunk_size then [] else b.srcAt t) ∧
      (∀ t, b'.chunksAt t =
        if (b.srcAt t).length = b.chunk_size then b.chunksAt t ++ [b.srcAt t]
        else b.chunksAt t) := by
  obtain ⟨s, c, heq, hk1, hk2, hs, hc⟩ :=
    flushAux_spec (fun v => v.length == b.chunk_size) b.sources b.chunks
      (by rw [hb.1]; exact termList_nodup)
      (by intro k _; rw [hb.2]; exact mem_termList k)
  refine ⟨{ b with sources := s, chunks := c }, ?_, rfl, ?_, ?_, ?_⟩
  · unfold DomainRecords.rechunk
    rw [heq]
  · exact ⟨by rw [hk1, hb.1], by rw [hk2, hb.2]⟩
  · intro t
    show (alGet s t).getD [] = _
    rw [hs t, alGet_srcAt b hb t]
    by_cases hlen : (b.srcAt t).length = b.chunk_size <;> simp [hlen]
  · intro t
    show (alGet c t).getD [] = _
    rw [hc t, alGet_srcAt b hb t, alGet_chunksAt b hb t]
    by_cases hlen : (b.srcAt t).length = b.chunk_size <;> simp [hlen]

theorem DomainRecords.finish_spec (b : DomainRecords) (hb : DomKeys b) :
    ∃ b', b.finish = some b' ∧ b'.chunk_size = b.chunk_size ∧ DomKeys b' ∧
      (∀ t, b'.srcAt t = []) ∧
      (∀ t, b'.chunksAt t =
        if b.srcAt t = [] then b.chunksAt t else b.chunksAt t ++ [b.srcAt t]) := by
  obtain ⟨s, c, heq, hk1, hk2, hs, hc⟩ :=
    flushAux_spec (fun v => decide (v ≠ [])) b.sources b.chunks
      (by rw [hb.1]; exact termList_nodup)
      (by intro k _; rw [hb.2]; exact mem_termList k)
  refine ⟨{ b with sources := s, chunks := c }, ?_, rfl, ?_, ?_, ?_⟩
  · unfold DomainRecords.finish
    rw [heq]
  · exact ⟨by rw [hk1, hb.1], by rw [hk2, hb.2]⟩
  · intro t
    show (alGet s t).getD [] = _
    rw [hs t, alGet_srcAt b hb t]
    by_cases hne : b.srcAt t = [] <;> simp [hne]
  · intro t
    show (alGet c t).getD [] = _
    rw [hc t, alGet_srcAt b hb t, alGet_chunksAt b hb t]
    by_cases hne : b.srcAt t = [] <;> simp [hne]

theorem srcAt_new (cs : Nat) (t : Term) : (DomainRecords.new cs).srcAt t = [] := by
  show (alGet (termList.map fun s => (s, [])) t).getD [] = []
  rw [alGet_mapConst _ _ _ (mem_termList t)]
  rfl

theorem chunksAt_new (cs : Nat) (t : Term) : (DomainRecords.new cs).chunksAt t = [] := by
  show (alGet (termList.map fun s => (s, [])) t).getD [] = []
  rw [alGet_mapConst _ _ _ (mem_termList t)]
  rfl

theorem contentAt_new (cs : Nat) (t : Term) : (DomainRecords.new cs).contentAt t = [] := by
  unfold DomainRecords.contentAt
  rw [srcAt_new, chunksAt_new]
  rfl

theorem DomainRecords.push_content (b : DomainRecords) (hb : DomKeys b) (s : Term)
    (r : DomainRow) :
    ∃ b', b.push s r = some b' ∧ b'.chunk_size = b.chunk_size ∧ DomKeys b' ∧
      (∀ t, b'.contentAt t = b.contentAt t ++ if s = t then [r] else []) ∧
      (1 ≤ b.chunk_size → (∀ u, (b.srcAt u).length < b.chunk_size) →
        (∀ u, ∀ ch ∈ b.chunksAt u, ch.length = b.chunk_size) →
        (∀ u, (b'.srcAt u).length < b.chunk_size) ∧
        (∀ u, ∀ ch ∈ b'.chunksAt u, ch.length = b.chunk_size)) := by
  have hb₁keys : DomKeys
      { b with sources := alUpdate b.sources s (fun v => v ++ [r]) } := by
    refine ⟨?_, hb.2⟩
    show (alUpdate b.sources s (fun v => v ++ [r])).map Prod.fst = termList
    rw [alUpdate_keys, hb.1]
  have hsrc₁ : ∀ t,
      ({ b with sources := alUpdate b.sources s (fun v => v ++ [r]) } :
        DomainRecords).srcAt t =
      if s = t then b.srcAt t ++ [r] else b.srcAt t := by
    intro t
    show (alGet (alUpdate b.sources s (fun v => v ++ [r])) t).getD [] = _
    rw [alGet_alUpdate]
    by_cases hst : s = t
    · rw [if_pos hst, if_pos hst, alGet_srcAt b hb t]
      rfl
    · rw [if_neg hst, if_neg hst]
      rfl
  have hch₁ : ∀ t,
      ({ b with sources := alUpdate b.sources s (fun v => v ++ [r]) } :
        DomainRecords).chunksAt t = b.chunksAt t := fun t => rfl
  obtain ⟨b', heq, hcs, hkeys, hsrc', hch'⟩ :=
    DomainRecords.rechunk_spec
      { b with sources := alUpdate b.sources s (fun v => v ++ [r]) } hb₁keys
  refine ⟨b', heq, hcs, hkeys, ?_, ?_⟩
  · intro t
    unfold DomainRecords.contentAt
    rw [hsrc' t, hch' t, hsrc₁ t, hch₁ t]
    by_cases hlen : ((if s = t then b.srcAt t ++ [r] else b.srcAt t).length =
        ({ b with sources := alUpdate b.sources s (fun v => v ++ [r])} :
          DomainRecords).chunk_size)
    · rw [if_pos hlen, if_pos hlen, List.flatten_append]
      by_cases hst : s = t <;> simp [hst, DomainRecords.contentAt]
    · rw [if_neg hlen, if_neg hlen]
      by_cases hst : s = t <;> simp [hst, DomainRecords.contentAt]
  · intro hcs1 hsrclt hchlen
    constructor
    · intro u
      rw [hsrc' u, hsrc₁ u]
      by_cases hlen : ((if s = u then b.srcAt u ++ [r] else b.srcAt u).length =
          ({ b with sources := alUpdate b.sources s (fun v => v ++ [r]) } :
            DomainRecords).chunk_size)
      · rw [if_pos hlen]
        simpa using hcs1
      · rw [if_neg hlen]
        by_cases hst : s = u
        · rw [if_pos hst]
          rw [if_pos hst] at hlen
          have := hsrclt u
          simp only [List.length_append, List.length_singleton]
          have hne : (b.srcAt u).length + 1 ≠ b.chunk_size := by simpa using hlen
          omega
        · rw [if_neg hst]
          exact hsrclt u
    · intro u ch hch
      rw [hch' u, hch₁ u, hsrc₁ u] at hch
      by_cases hlen : ((if s = u then b.srcAt u ++ [r] else b.srcAt u).length =
          ({ b with sources := alUpdate b.sources s (fun v => v ++ [r]) } :
            DomainRecords).chunk_size)
      · rw [if_pos hlen] at hch
        rcases List.mem_append.mp hch with hmem | hmem
        · exact hchlen u ch hmem
        · simp only [List.mem_singleton] at hmem
          subst hmem
          simpa using hlen
      · rw [if_neg hlen] at hch
        exact hchlen u ch hch

theorem DomainRecords.pushAll_spec (pushes : List (Term × DomainRow)) :
    ∀ b : DomainRecords, DomKeys b →
    ∃ b', b.pushAll pushes = some b' ∧ b'.chunk_size = b.chunk_size ∧ DomKeys b' ∧
      (∀ t, b'.contentAt t = b.contentAt t ++
        (pushes.filter (fun p => decide (p.1 = t))).map Prod.snd) ∧
      (1 ≤ b.chunk_size → (∀ u, (b.srcAt u).length < b.chunk_size) →
        (∀ u, ∀ ch ∈ b.chunksAt u, ch.length = b.chunk_size) →
        (∀ u, (b'.srcAt u).length < b.chunk_size) ∧
        (∀ u, ∀ ch ∈ b'.chunksAt u, ch.length = b.chunk_size)) := by
  induction pushes with
  | nil =>
    intro b hb
    exact ⟨b, rfl, rfl, hb, fun t => by simp, fun _ h2 h3 => ⟨h2, h3⟩⟩
  | cons p rest ih =>
    intro b hb
    obtain ⟨s, r⟩ := p
    obtain ⟨b₁, hpush, hcs₁, hkeys₁, hcont₁, hshape₁⟩ := DomainRecords.push_content b hb s r
    obtain ⟨b', hrest, hcs', hkeys', hcont', hshape'⟩ := ih b₁ hkeys₁
    refine ⟨b', ?_, by rw [hcs', hcs₁], hkeys', ?_, ?_⟩
    · show DomainRecords.pushAll b ((s, r) :: rest) = some b'
      simp only [DomainRecords.pushAll, hpush]
      exact hrest
    · intro t
      rw [hcont' t, hcont₁ t, List.append_assoc]
      congr 1
      rw [List.filter_cons]
      by_cases hst : s = t <;> simp [hst]
    · intro hcs h2 h3
      have hsh₁ := hshape₁ hcs h2 h3
      have := hshape' (by rwa [hcs₁]) (by rw [hcs₁]; exact hsh₁.1) (by rw [hcs₁]; exact hsh₁.2)
      rw [hcs₁] at this
      exact this

/-- C10: both per-Term `HashMap`s of the domain builder hold an entry for
every `Term` value from construction onward, each operation preserves
this, hence `push` never silently drops a row (every pushed row is
accounted for in its Term's content) and the internal map lookups of
`rechunk` and `finish` always succeed (no operation ever returns the
embedded unwrap-panic `none`). -/
theorem C10_per_term_maps_complete (cs : Nat) (pushes : List (Term × DomainRow)) :
    (∀ t : Term, (alGet (DomainRecords.new cs).sources t).isSome ∧
      (alGet (DomainRecords.new cs).chunks t).isSome) ∧
    ∃ b, (DomainRecords.new cs).pushAll pushes = some b ∧
      (∀ t : Term, (alGet b.sources t).isSome ∧ (alGet b.chunks t).isSome) ∧
      (∀ t : Term, b.contentAt t =
        (pushes.filter (fun p => decide (p.1 = t))).map Prod.snd) ∧
      ∃ bf, b.finish = some bf ∧
        ∀ t : Term, (alGet bf.sources t).isSome ∧ (alGet bf.chunks t).isSome := by
  have hsome : ∀ b : DomainRecords, DomKeys b →
      ∀ t : Term, (alGet b.sources t).isSome ∧ (alGet b.chunks t).isSome := by
    intro b hb t
    rw [alGet_srcAt b hb t, alGet_chunksAt b hb t]
    exact ⟨rfl, rfl⟩
  obtain ⟨b, hb, _, hkeys, hcont, _⟩ :=
    DomainRecords.pushAll_spec pushes (DomainRecords.new cs) (DomKeys_new cs)
  obtain ⟨bf, hbf, _, hbfkeys, _, _⟩ := DomainRecords.finish_spec b hkeys
  refine ⟨hsome _ (DomKeys_new cs), b, hb, hsome b hkeys, ?_, bf, hbf, hsome bf hbfkeys⟩
  intro t
  rw [hcont t, contentAt_new]
  rfl

theorem sum_map_length {α : Type} (L : List (List α)) :
    (L.map List.length).sum = L.flatten.length := by
  induction L with
  | nil => rfl
  | cons x xs ih =>
    simp only [List.map_cons, List.sum_cons, List.flatten_cons, List.length_append, ih]

/-- C2: for every append sequence of N rows and every
`chunk_size ∈ {1, N, N+1}`, finalizing yields batches whose row counts
sum to N, each batch within `chunk_size` and non-empty (the final partial
batch included), and concatenating the batches in order reproduces the
append sequence (in its stored column form); this holds for the gene
builder and, per Term, for the domain builder. -/
theorem C2_chunk_invariants :
    (∀ (rows : List GeneRow) (cs : Nat),
      (cs = 1 ∨ cs = rows.length ∨ cs = rows.length + 1) →
      (((((GeneRecords.new cs).pushAll rows).finish.chunks.map List.length).sum =
          rows.length) ∧
       (∀ c ∈ ((GeneRecords.new cs).pushAll rows).finish.chunks,
          c.length ≤ cs ∧ c ≠ []) ∧
       (((GeneRecords.new cs).pushAll rows).finish.chunks.flatten =
          rows.map GeneRow.store) ∧
       ((GeneRecords.new cs).pushAll rows).finish.rows = [])) ∧
    (∀ (pushes : List (Term × DomainRow)) (cs : Nat),
      (cs = 1 ∨ cs = pushes.length ∨ cs = pushes.length + 1) →
      ∃ b bf, (DomainRecords.new cs).pushAll pushes = some b ∧ b.finish = some bf ∧
        ∀ t : Term,
          (((bf.chunksAt t).map List.length).sum =
            (pushes.filter (fun p => decide (p.1 = t))).length) ∧
          (∀ c ∈ bf.chunksAt t, c.length ≤ cs ∧ c ≠ []) ∧
          ((bf.chunksAt t).flatten =
            (pushes.filter (fun p => decide (p.1 = t))).map Prod.snd) ∧
          bf.srcAt t = []) := by
  constructor
  · intro rows cs hcs
    by_cases hrows : rows = []
    · subst hrows
      refine ⟨rfl, ?_, rfl, rfl⟩
      intro c hc
      exact absurd hc (List.not_mem_nil c)
    · have hlenpos : 0 < rows.length := List.length_pos.mpr hrows
      have hcs1 : 1 ≤ cs := by rcases hcs with h | h | h <;> omega
      have hinv0 : GeneInv cs (GeneRecords.new cs) :=
        ⟨rfl, by simp [GeneRecords.new], by simp [GeneRecords.new]⟩
      obtain ⟨hinv, hcont⟩ :=
        GeneRecords.pushAll_inv cs hcs1 rows (GeneRecords.new cs) hinv0
      obtain ⟨hrows', hflat, hch⟩ := GeneRecords.finish_flush cs hcs1 _ hinv
      have hcontent : ((GeneRecords.new cs).pushAll rows).content =
          rows.map GeneRow.store := by
        rw [hcont]
        simp [GeneRecords.content, GeneRecords.new]
      refine ⟨?_, hch, ?_, hrows'⟩
      · rw [sum_map_length, hflat, hcontent, List.length_map]
      · rw [hflat, hcontent]
  · intro pushes cs hcs
    by_cases hpushes : pushes = []
    · subst hpushes
      obtain ⟨bf, hbf, hbfcs, hbfkeys, hbfsrc, hbfch⟩ :=
        DomainRecords.finish_spec (DomainRecords.new cs) (DomKeys_new cs)
      refine ⟨DomainRecords.new cs, bf, rfl, hbf, ?_⟩
      intro t
      have hcht : bf.chunksAt t = [] := by
        rw [hbfch t, srcAt_new, chunksAt_new]
        simp
      refine ⟨?_, ?_, ?_, hbfsrc t⟩
      · rw [hcht]
        rfl
      · rw [hcht]
        intro c hc
        simp at hc
      · rw [hcht]
        rfl
    · have hlenpos : 0 < pushes.length := List.length_pos.mpr hpushes
      have hcs1 : 1 ≤ cs := by rcases hcs with h | h | h <;> omega
      obtain ⟨b, hb, hbcs, hbkeys, hbcont, hbshape⟩ :=
        DomainRecords.pushAll_spec pushes (DomainRecords.new cs) (DomKeys_new cs)
      have hshape := hbshape hcs1
        (fun u => by rw [srcAt_new]; simpa using hcs1)
        (fun u ch hch => by rw [chunksAt_new] at hch; simp at hch)
      obtain ⟨bf, hbf, hbfcs, hbfkeys, hbfsrc, hbfch⟩ := DomainRecords.finish_spec b hbkeys
      refine ⟨b, bf, hb, hbf, ?_⟩
      intro t
      have hcontent : b.contentAt t =
          (pushes.filter (fun p => decide (p.1 = t))).map Prod.snd := by
        rw [hbcont t, contentAt_new]
        rfl
      have hflat : (bf.chunksAt t).flatten = b.contentAt t := by
        rw [hbfch t]
        by_cases hsrc : b.srcAt t = []
        · rw [if_pos hsrc]
          unfold DomainRecords.contentAt
          rw [hsrc]
          simp
        · rw [if_neg hsrc]
          unfold DomainRecords.contentAt
          simp [List.flatten_append]
      refine ⟨?_, ?_, ?_, hbfsrc t⟩
      · rw [sum_map_length, hflat, hcontent, List.length_map]
      · intro c hc
        rw [hbfch t] at hc
        by_cases hsrc : b.srcAt t = []
        · rw [if_pos hsrc] at hc
          have hlen := hshape.2 t c hc
          rw [show (DomainRecords.new cs).chunk_size = cs from rfl] at hlen
          refine ⟨le_of_eq hlen, fun hnil => ?_⟩
          rw [hnil] at hlen
          simp at hlen
          omega
        · rw [if_neg hsrc] at hc
          rcases List.mem_append.mp hc with hm | hm
          · have hlen := hshape.2 t c hm
            rw [show (DomainRecords.new cs).chunk_size = cs from rfl] at hlen
            refine ⟨le_of_eq hlen, fun hnil => ?_⟩
            rw [hnil] at hlen
            simp at hlen
            omega
          · simp only [List.mem_singleton] at hm
            subst hm
            exact ⟨le_of_lt (hshape.1 t), hsrc⟩
      · rw [hflat, hcontent]

/-- Witness for C2: a single gene row with `chunk_size = 1` finalizes to
batches totalling one row. -/
theorem C2_chunk_invariants_witness :
    ((((GeneRecords.new 1).pushAll
        [⟨"g".data, "ss".data, none, "o".data⟩]).finish.chunks.map
      List.length).sum : Nat) = 1 :=
  (C2_chunk_invariants.1 [⟨"g".data, "ss".data, none, "o".data⟩] 1 (Or.inl rfl)).1

theorem mem_of_alGet {κ α : Type} [DecidableEq κ] (m : List (κ × α)) (k : κ) (x : α)
    (h : alGet m k = some x) : (k, x) ∈ m := by
  unfold alGet at h
  cases hf : m.find? (fun kv => decide (kv.1 = k)) with
  | none =>
    rw [hf] at h
    simp at h
  | some kv =>
    rw [hf] at h
    simp only [Option.map_some', Option.some.injEq] at h
    have hmem := List.mem_of_find?_eq_some hf
    have hp := List.find?_some hf
    simp only [decide_eq_true_eq] at hp
    obtain ⟨a, v⟩ := kv
    simp only at hp h
    rw [← hp, ← h]
    exact hmem

/-- C3 counterexample: writing a domain store in which every Term,
including the sentinel `"."`, accumulated zero rows still produces one
file per Term: the output contains a `source=.` partition directory with
a (chunk-less) `.ipc` file in it. -/
theorem C3_sentinel_write_counterexample :
    ("d".data ++ "/source=".data ++ ".".data, "u".data ++ ".ipc".data,
      ([] : List (List DomainRow))) ∈
      ((DomainRecords.new 10000).write "d".data (fun _ => "u".data)).getD [] := by
  decide

/-- C3 (amended): writing a finalized domain store iterates over all
Terms and creates one partition directory and one file for EVERY Term —
a Term with zero accumulated rows produces a file with no row chunks
rather than no file; in particular the sentinel Term (canonical `"."`,
whose rows the GFF3 reader drops before they reach the store) gets a
chunk-less file under `source=.` on every write. -/
theorem C3_write_per_term (cs : Nat) (pushes : List (Term × DomainRow))
    (dir : List Char) (uuid : Term → List Char) :
    ∃ b files, (DomainRecords.new cs).pushAll pushes = some b ∧
      b.write dir uuid = some files ∧
      files.map (fun f => f.1) =
        termList.map (fun t => dir ++ "/source=".data ++ t.toCanonical) ∧
      (∀ t : Term, ∃ contents,
        (dir ++ "/source=".data ++ t.toCanonical, uuid t ++ ".ipc".data, contents) ∈
          files ∧
        contents.flatten =
          (pushes.filter (fun p => decide (p.1 = t))).map Prod.snd) := by
  obtain ⟨b, hb, hbcs, hbkeys, hbcont, _⟩ :=
    DomainRecords.pushAll_spec pushes (DomainRecords.new cs) (DomKeys_new cs)
  obtain ⟨bf, hbf, _, hbfkeys, hbfsrc, hbfch⟩ := DomainRecords.finish_spec b hbkeys
  refine ⟨b, bf.chunks.map (fun kv =>
      (dir ++ "/source=".data ++ Term.toCanonical kv.1,
       uuid kv.1 ++ ".ipc".data, kv.2)), hb, ?_, ?_, ?_⟩
  · unfold DomainRecords.write
    rw [hbf]
  · rw [List.map_map, ← hbfkeys.2, List.map_map]
    rfl
  · intro t
    refine ⟨bf.chunksAt t, ?_, ?_⟩
    · have hmem : (t, bf.chunksAt t) ∈ bf.chunks :=
        mem_of_alGet _ _ _ (alGet_chunksAt bf hbfkeys t)
      exact List.mem_map.mpr ⟨(t, bf.chunksAt t), hmem, rfl⟩
    · have hcontent : b.contentAt t =
          (pushes.filter (fun p => decide (p.1 = t))).map Prod.snd := by
        rw [hbcont t, contentAt_new]
        rfl
      rw [← hcontent, hbfch t]
      by_cases hsrc : b.srcAt t = []
      · rw [if_pos hsrc]
        unfold DomainRecords.contentAt
        rw [hsrc]
        simp
      · rw [if_neg hsrc]
        unfold DomainRecords.contentAt
        simp [List.flatten_append]

/-- C6: registering an organism whose domain partition directory already
exists fails with the already-registered error; the existence check
precedes parsing and writing, so the failed attempt performs no write and
returns the filesystem unchanged — byte-identical, for every input,
parseable or not. -/
theorem C6_register_duplicate_unchanged (fs : List FSEntry) (dir org : List Char)
    (input : Option (DomainRecords × GeneRecords)) (uuidD : Term → List Char)
    (uuidG : List Char)
    (h : fsExists fs (dir ++ "/domain/org=".data ++ org) = true) :
    registerCmd fs dir org input uuidD uuidG = (fs, some RegError.alreadyRegistered) := by
  unfold registerCmd
  rw [if_pos h]

/-- Witness for C6: a second registration of organism `A` under root
`root` leaves the one-entry filesystem untouched, with an unparseable
input. -/
theorem C6_register_duplicate_unchanged_witness :
    registerCmd [FSEntry.dir ("root".data ++ "/domain/org=".data ++ "A".data)]
      "root".data "A".data none (fun _ => "u".data) "u".data =
      ([FSEntry.dir ("root".data ++ "/domain/org=".data ++ "A".data)],
        some RegError.alreadyRegistered) :=
  C6_register_duplicate_unchanged _ _ _ _ _ _ (by decide)

theorem filterByMask_map {α : Type} (f : α → Bool) (xs : List α) :
    filterByMask xs (xs.map f) = xs.filter f := by
  induction xs with
  | nil => rfl
  | cons x rest ih =>
    simp only [List.map_cons, filterByMask, List.filter_cons]
    by_cases h : f x <;> simp [h, ih]

/-- C8: after grouping by `gene_id`, a gene whose aggregated domain-name
list is absent gets mask value `false`, and the mask value is the same
for every matcher (the matcher is not invoked on it); exactly the genes
whose expression evaluation is true are kept. -/
theorem C8_absent_group_false (matcher : List (List Char) → Bool)
    (groups : List (List Char × Option (List (List Char)))) :
    (∀ (m m' : List (List Char) → Bool) (gid : List Char),
      findMask m [(gid, none)] = [false] ∧
      findMask m [(gid, none)] = findMask m' [(gid, none)]) ∧
    findKept matcher groups = groups.filter (fun g =>
      match g.2 with
      | some names => matcher names
      | none => false) := by
  exact ⟨fun m m' gid => ⟨rfl, rfl⟩, filterByMask_map _ groups⟩

end InterproArrow
